import Mathlib

/-!
Verification of the pymbar example `force-bias-optical-trap.py` (non-uniform
binning, observed-histogram consistency check, observed-PMF output) and of
`pymbar/testsystems/pymbar_datasets.py` (dataset persistence helpers).

Real values are modelled as exact rationals; numpy float arrays become lists
of rationals or functions out of natural-number indices.  Transcendental
functions that only decorate reported values (log, exp, sqrt) are passed in
as explicit function parameters, so every definition stays executable.
-/

namespace OpticalTrap

/-- Model of `x_n.argsort()`: the indices of `x_n` reordered so that the
values they point to are nondecreasing.  Insertion sort on the index list
`[0, ..., N-1]`, comparing indices by the values they index. -/
def argsort (x : List ℚ) : List ℕ :=
  @List.insertionSort ℕ (fun i j => x.getD i 0 ≤ x.getD j 0)
    (fun i j => inferInstanceAs (Decidable (x.getD i 0 ≤ x.getD j 0)))
    (List.range x.length)

/-- Model of `x_n.min()` (numpy reduction over a nonempty array; the `[]`
case is never used by the program, which fails on empty input). -/
def x_min (x : List ℚ) : ℚ :=
  match x with
  | [] => 0
  | h :: t => t.foldl min h

/-- Model of `x_n.max()` before the adjustment on line 86. -/
def x_max_raw (x : List ℚ) : ℚ :=
  match x with
  | [] => 0
  | h :: t => t.foldl max h

/-- Line 86: `x_max += (x_max - x_min) * 1.0e-5`. -/
def x_max (x : List ℚ) : ℚ :=
  x_max_raw x + (x_max_raw x - x_min x) * (1 / 100000)

/-- Lines 91-92: `int(float(N) / float(nbins) * float(bin_index))`, the rank
of the first data point of bin `bin_index`; with exact (rather than double)
arithmetic this is the floor of `N * i / nbins`.  Also used with `i + 1` for
`last_index`. -/
def first_index (N nbins i : ℕ) : ℕ :=
  N * i / nbins

/-- Line 98: the slice `sorted_indices[first_index:last_index]` of bin `i`. -/
def slice (x : List ℚ) (nbins i : ℕ) : List ℕ :=
  ((argsort x).drop (first_index x.length nbins i)).take
    (first_index x.length nbins (i + 1) - first_index x.length nbins i)

/-- Lines 81, 89-98: `bin_n = np.zeros([N])` followed by the loop doing
`bin_n[sorted_indices[first_index:last_index]] = bin_index`.  The numpy
array is modelled as a function from positions to stored bin indices, and
each fancy-indexed slice assignment updates all positions of the slice. -/
def bin_n (x : List ℚ) (nbins : ℕ) : ℕ → ℕ :=
  (List.range nbins).foldl
    (fun bn i => fun p => if p ∈ slice x nbins i then i else bn p)
    (fun _ => 0)

/-- Lines 77, 95, 101: the `nbins + 1` bin boundaries; entry `i < nbins` is
`x_n[sorted_indices[first_index]]` and entry `nbins` is the adjusted
`x_max`. -/
def bin_left_boundary_i (x : List ℚ) (nbins : ℕ) : List ℚ :=
  (List.range nbins).map
    (fun i => x.getD ((argsort x).getD (first_index x.length nbins i) 0) 0)
    ++ [x_max x]

/-- Lines 104-107: centers are midpoints of adjacent boundaries. -/
def bin_center_i (x : List ℚ) (nbins : ℕ) : List ℚ :=
  (List.range nbins).map (fun i =>
    ((bin_left_boundary_i x nbins).getD i 0
      + (bin_left_boundary_i x nbins).getD (i + 1) 0) / 2)

/-- Lines 108-110: widths are differences of adjacent boundaries. -/
def bin_width_i (x : List ℚ) (nbins : ℕ) : List ℚ :=
  (List.range nbins).map (fun i =>
    (bin_left_boundary_i x nbins).getD (i + 1) 0
      - (bin_left_boundary_i x nbins).getD i 0)

/-- `construct_nonuniform_bins(x_n, nbins)` (lines 50-112).  The function
performs no argument validation; on an empty input array the numpy
reduction `x_n.min()` raises, modelled as `none`.  In every other case
(including `nbins = 0`) it returns its four result arrays. -/
def construct_nonuniform_bins (x_n : List ℚ) (nbins : ℕ) :
    Option (List ℚ × List ℚ × List ℚ × (ℕ → ℕ)) :=
  if x_n.isEmpty then none
  else some (bin_left_boundary_i x_n nbins, bin_center_i x_n nbins,
    bin_width_i x_n nbins, bin_n x_n nbins)

/-- Number of samples assigned to bin `i` by `bin_n`. -/
def bin_population (x : List ℚ) (nbins i : ℕ) : ℕ :=
  (List.range x.length).countP (fun p => decide (bin_n x nbins p = i))

/-- The rank interval of bin `i` is `[first_index i, first_index (i+1))`;
the bin that the sample of sorted rank `j` lands in. -/
def rank_bin (N nbins j : ℕ) : ℕ :=
  (nbins * (j + 1) - 1) / N

end OpticalTrap

namespace PymbarDatasets

/-- `get_sn(N_k)` (pymbar_datasets.py lines 10-35): a length-`sum(N_k)`
array filled, in order, with `N_k[i]` copies of each state index `i`.  The
nested write loop advancing the cursor `k` appends `N_k[i]` copies of `i`
for `i = 0, ..., n_states - 1`. -/
def get_sn (N_k : List ℕ) : List ℕ :=
  (List.range N_k.length).foldl
    (fun s i => s ++ List.replicate (N_k.getD i 0) i) []

/-- Partial sum `N_k[0] + ... + N_k[i-1]`: the first pooled sample index of
state `i`. -/
def psum (N_k : List ℕ) (i : ℕ) : ℕ :=
  (N_k.take i).sum

/-- In-memory model of the HDF5 store written by `save()` and read back by
`load_from_hdf()`: three named arrays. -/
structure HDFFile where
  u_kn : List (List ℚ)
  N_k : List ℕ
  s_n : List ℕ

/-- Modelled from the spec: `ensure_type` (imported from `pymbar.utils`,
which is not under src/) validates the dtype and shape of an array and
raises on mismatch; on this exactly-typed model only the shape check
remains.  Vector version, shape `(n,)`. -/
def ensure_type_vec (a : List ℕ) (n : ℕ) : Option (List ℕ) :=
  if a.length = n then some a else none

/-- Modelled from the spec: `ensure_type` for the 2D float array, shape
`(r, c)`. -/
def ensure_type_mat (a : List (List ℚ)) (r c : ℕ) :
    Option (List (List ℚ)) :=
  if a.length = r ∧ ∀ row ∈ a, row.length = c then some a else none

/-- `save(name, u_kn, N_k, s_n=None)` (lines 73-108): takes the shape from
`u_kn`, validates all three arrays with `ensure_type`, infers `s_n` with
`get_sn(N_k)` when it is absent, and writes the three arrays to the store.
The `name`/filename argument only names the file and is omitted. -/
def save (u_kn : List (List ℚ)) (N_k : List ℕ) (s_n : Option (List ℕ)) :
    Option HDFFile :=
  let n_states := u_kn.length
  let n_samples := (u_kn.headD []).length
  match ensure_type_mat u_kn n_states n_samples with
  | none => none
  | some u =>
    match ensure_type_vec N_k n_states with
    | none => none
    | some nk =>
      let s := match s_n with
        | none => get_sn nk
        | some s0 => s0
      match ensure_type_vec s n_samples with
      | none => none
      | some s2 => some ⟨u, nk, s2⟩

/-- `load_from_hdf(filename)` (lines 37-61): read the three arrays back
from the store. -/
def load_from_hdf (f : HDFFile) : List (List ℚ) × List ℕ × List ℕ :=
  (f.u_kn, f.N_k, f.s_n)

end PymbarDatasets

namespace OpticalTrapMain

/-- Lines 274-278 of main(): `N_i_observed = np.zeros([NBINS])` followed by
`N_i_observed[bin_kt[l, t]] += 1` over the raw (non-decorrelated) series of
state `l`.  `binRow` is that state's raw per-sample bin assignments; the
numpy array is a function from bin index to count. -/
def N_i_observed (binRow : List ℕ) : ℕ → ℚ :=
  binRow.foldl (fun arr b => fun i => if i = b then arr i + 1 else arr i)
    (fun _ => 0)

/-- Line 279: `N = N_i_observed.sum()` over the `NBINS` entries. -/
def N_total (binRow : List ℕ) (nbins : ℕ) : ℚ :=
  ((List.range nbins).map (N_i_observed binRow)).sum

/-- Lines 281-284:
`dN_i_observed[i] = sqrt(g * N_i_observed[i] * (1 - N_i_observed[i] / N))`;
the floating-point square root is passed in as a parameter. -/
def dN_i_observed (sqrtf : ℚ → ℚ) (g : ℚ) (binRow : List ℕ) (nbins i : ℕ) :
    ℚ :=
  sqrtf (g * N_i_observed binRow i
    * (1 - N_i_observed binRow i / N_total binRow nbins))

/-- Line 271: `f_i.min()` over the `nbins` entries. -/
def f_min (f : ℕ → ℚ) (nbins : ℕ) : ℚ :=
  ((List.range nbins).map f).foldl min (f 0)

/-- Line 271: `p_i = np.exp(-f_i + f_i.min())`, with the floating-point
exponential passed in as a parameter. -/
def p_i_raw (expf : ℚ → ℚ) (f : ℕ → ℚ) (nbins i : ℕ) : ℚ :=
  expf (-f i + f_min f nbins)

/-- Line 272: `p_i.sum()`. -/
def p_i_sum (expf : ℚ → ℚ) (f : ℕ → ℚ) (nbins : ℕ) : ℚ :=
  ((List.range nbins).map (p_i_raw expf f nbins)).sum

/-- Line 272: `p_i /= p_i.sum()`. -/
def p_i (expf : ℚ → ℚ) (f : ℕ → ℚ) (nbins i : ℕ) : ℚ :=
  p_i_raw expf f nbins i / p_i_sum expf f nbins

/-- Line 286: `N_i_expected = float(N) * p_i`. -/
def N_i_expected (expf : ℚ → ℚ) (f : ℕ → ℚ) (nbins : ℕ) (N : ℚ) (i : ℕ) :
    ℚ :=
  N * p_i expf f nbins i

/-- Line 322: `indices = np.where(N_i_observed > 0)[0]` over the `NBINS`
bins. -/
def positive_indices (cnt : ℕ → ℚ) (nbins : ℕ) : List ℕ :=
  (List.range nbins).filter (fun i => decide (0 < cnt i))

/-- Lines 323-326: `pmf_i_observed = np.zeros([NBINS])`, then
`pmf_i_observed[indices] = -log(N_i_observed[indices]) +
log(bin_width_i[indices])`, then the mean over `indices` is subtracted at
those same positions.  Entries outside `indices` keep the allocated `0`. -/
def pmf_i_observed (logf : ℚ → ℚ) (cnt width : ℕ → ℚ) (nbins : ℕ) :
    ℕ → ℚ :=
  fun i =>
    if i ∈ positive_indices cnt nbins then
      (- logf (cnt i) + logf (width i))
        - (((positive_indices cnt nbins).map
            (fun j => - logf (cnt j) + logf (width j))).sum
          / ((positive_indices cnt nbins).length : ℚ))
    else 0

/-- Line 327: `dpmf_i_observed[indices] = dN_i_observed[indices] /
N_i_observed[indices]`; entries outside `indices` keep the allocated
`0`. -/
def dpmf_i_observed (cnt dN : ℕ → ℚ) (nbins : ℕ) : ℕ → ℚ :=
  fun i => if i ∈ positive_indices cnt nbins then dN i / cnt i else 0

/-- Lines 329-336: the rows written to `pmf-observed-l.out` — the loop
`for i in indices` writes one row per positive-count bin.  Each row is
keyed here by its bin index `i` (the file's first column is
`bin_center_i[i]`, a function of `i`) and carries the `pmf_i_observed` and
`dpmf_i_observed` values. -/
def pmf_observed_records (logf : ℚ → ℚ) (cnt width dN : ℕ → ℚ)
    (nbins : ℕ) : List (ℕ × ℚ × ℚ) :=
  (positive_indices cnt nbins).map
    (fun i => (i, pmf_i_observed logf cnt width nbins i,
      dpmf_i_observed cnt dN nbins i))

end OpticalTrapMain

namespace OpticalTrap

lemma argsort_length (x : List ℚ) : (argsort x).length = x.length := by
  unfold argsort
  rw [List.length_insertionSort, List.length_range]

lemma argsort_perm (x : List ℚ) : List.Perm (argsort x) (List.range x.length) :=
  List.perm_insertionSort _ _

lemma argsort_nodup (x : List ℚ) : (argsort x).Nodup :=
  ((argsort_perm x).nodup_iff).2 (List.nodup_range _)

lemma mem_argsort (x : List ℚ) (p : ℕ) : p ∈ argsort x ↔ p < x.length := by
  rw [(argsort_perm x).mem_iff, List.mem_range]

lemma argsort_sorted (x : List ℚ) :
    (argsort x).Pairwise (fun i j => x.getD i 0 ≤ x.getD j 0) :=
  @List.sorted_insertionSort ℕ (fun i j => x.getD i 0 ≤ x.getD j 0)
    (fun i j => inferInstanceAs (Decidable (x.getD i 0 ≤ x.getD j 0)))
    ⟨fun _ _ => le_total _ _⟩ ⟨fun _ _ _ hab hbc => le_trans hab hbc⟩
    (List.range x.length)

lemma argsort_getD_lt (x : List ℚ) {j : ℕ} (hj : j < x.length) :
    (argsort x).getD j 0 < x.length := by
  have hj' : j < (argsort x).length := by rw [argsort_length]; exact hj
  rw [List.getD_eq_getElem _ _ hj']
  exact (mem_argsort x _).1 (List.getElem_mem hj')

lemma argsort_getD_inj (x : List ℚ) {j j' : ℕ} (hj : j < x.length)
    (hj' : j' < x.length)
    (h : (argsort x).getD j 0 = (argsort x).getD j' 0) : j = j' := by
  have h1 : j < (argsort x).length := by rw [argsort_length]; exact hj
  have h2 : j' < (argsort x).length := by rw [argsort_length]; exact hj'
  rw [List.getD_eq_getElem _ _ h1, List.getD_eq_getElem _ _ h2] at h
  exact (List.Nodup.getElem_inj_iff (argsort_nodup x)).1 h

/-- A write-loop over pointwise-updated arrays leaves a cell untouched when
no processed slice contains its position. -/
lemma foldl_write_of_not_mem (sl : ℕ → List ℕ) :
    ∀ (L : List ℕ) (a : ℕ → ℕ) (p : ℕ), (∀ i ∈ L, p ∉ sl i) →
      L.foldl (fun bn i => fun q => if q ∈ sl i then i else bn q) a p = a p := by
  intro L
  induction L with
  | nil => intro a p _; rfl
  | cons i L ih =>
    intro a p h
    have hi : p ∉ sl i := h i (List.mem_cons_self i L)
    simp only [List.foldl_cons]
    rw [ih _ p (fun j hj => h j (List.mem_cons_of_mem _ hj))]
    simp [hi]

/-- A write-loop over pointwise-updated arrays stores `i` in cell `p` when
the slice of `i` is the only processed slice containing `p`. -/
lemma foldl_write_of_unique (sl : ℕ → List ℕ) :
    ∀ (L : List ℕ) (a : ℕ → ℕ) (p i : ℕ), i ∈ L → p ∈ sl i →
      (∀ j ∈ L, p ∈ sl j → j = i) →
      L.foldl (fun bn i => fun q => if q ∈ sl i then i else bn q) a p = i := by
  intro L
  induction L with
  | nil => intro a p i hi _ _; exact absurd hi (List.not_mem_nil i)
  | cons k L ih =>
    intro a p i hi hp huniq
    simp only [List.foldl_cons]
    by_cases hk : p ∈ sl k
    · have hk_eq : k = i := huniq k (List.mem_cons_self _ _) hk
      subst hk_eq
      by_cases hex : ∃ j ∈ L, p ∈ sl j
      · obtain ⟨j, hjL, hpj⟩ := hex
        have hjk : j = k := huniq j (List.mem_cons_of_mem _ hjL) hpj
        subst hjk
        exact ih _ p j hjL hpj
          (fun j2 hj2 hpj2 => huniq j2 (List.mem_cons_of_mem _ hj2) hpj2)
      · push_neg at hex
        rw [foldl_write_of_not_mem sl L _ p hex]
        simp [hk]
    · have hiL : i ∈ L := by
        rcases List.mem_cons.1 hi with h | h
        · subst h; exact absurd hp hk
        · exact h
      exact ih _ p i hiL hp
        (fun j hj hpj => huniq j (List.mem_cons_of_mem _ hj) hpj)

lemma first_index_zero (N nbins : ℕ) : first_index N nbins 0 = 0 := by
  simp [first_index]

lemma first_index_mono (N nbins : ℕ) {i i' : ℕ} (h : i ≤ i') :
    first_index N nbins i ≤ first_index N nbins i' :=
  Nat.div_le_div_right (Nat.mul_le_mul_left N h)

lemma first_index_self (N nbins : ℕ) (hB : 0 < nbins) :
    first_index N nbins nbins = N := by
  unfold first_index
  exact Nat.mul_div_cancel _ hB

lemma first_index_le (N nbins : ℕ) (hB : 0 < nbins) {i : ℕ} (h : i ≤ nbins) :
    first_index N nbins i ≤ N := by
  have := first_index_mono N nbins h
  rw [first_index_self N nbins hB] at this
  exact this

lemma first_index_lt (N nbins : ℕ) (hN : 0 < N) {i : ℕ} (h : i < nbins) :
    first_index N nbins i < N := by
  have hB : 0 < nbins := lt_of_le_of_lt (Nat.zero_le i) h
  unfold first_index
  rw [Nat.div_lt_iff_lt_mul hB]
  exact (mul_lt_mul_left hN).2 h

lemma mem_take_drop_iff {l : List ℕ} {q a k : ℕ} :
    q ∈ (l.drop a).take k ↔ ∃ r, a ≤ r ∧ r < a + k ∧ l[r]? = some q := by
  rw [List.mem_iff_getElem?]
  constructor
  · rintro ⟨n, hn⟩
    rw [List.getElem?_take] at hn
    by_cases hnk : n < k
    · rw [if_pos hnk, List.getElem?_drop] at hn
      exact ⟨a + n, Nat.le_add_right _ _, by omega, hn⟩
    · rw [if_neg hnk] at hn
      exact absurd hn (by simp)
  · rintro ⟨r, har, hrk, hval⟩
    refine ⟨r - a, ?_⟩
    rw [List.getElem?_take, if_pos (by omega : r - a < k), List.getElem?_drop]
    rw [show a + (r - a) = r from by omega]
    exact hval

/-- Membership of the stored index of sorted rank `j` in the slice of bin
`i` is exactly the rank test `first_index i ≤ j < first_index (i+1)`. -/
lemma mem_slice_iff (x : List ℚ) (nbins i : ℕ) {j : ℕ} (hj : j < x.length) :
    (argsort x).getD j 0 ∈ slice x nbins i ↔
      first_index x.length nbins i ≤ j ∧ j < first_index x.length nbins (i + 1) := by
  have hab : first_index x.length nbins i ≤ first_index x.length nbins (i + 1) :=
    first_index_mono _ _ (Nat.le_succ i)
  have hj' : j < (argsort x).length := by rw [argsort_length]; exact hj
  unfold slice
  rw [mem_take_drop_iff]
  constructor
  · rintro ⟨r, har, hrk, hval⟩
    obtain ⟨hrl, hval2⟩ := List.getElem?_eq_some_iff.1 hval
    rw [List.getD_eq_getElem _ _ hj'] at hval2
    have hrj : r = j :=
      (List.Nodup.getElem_inj_iff (argsort_nodup x)).1 hval2
    subst hrj
    exact ⟨har, by omega⟩
  · rintro ⟨h1, h2⟩
    refine ⟨j, h1, by omega, ?_⟩
    rw [List.getD_eq_getElem _ _ hj']
    exact List.getElem?_eq_some_iff.2 ⟨hj', rfl⟩

lemma rank_bin_lt (N nbins j : ℕ) (hN : 0 < N) (hB : 0 < nbins) (hj : j < N) :
    rank_bin N nbins j < nbins := by
  unfold rank_bin
  rw [Nat.div_lt_iff_lt_mul hN]
  have h1 : nbins * (j + 1) ≤ nbins * N := Nat.mul_le_mul_left nbins (by omega)
  have h2 : 0 < nbins * (j + 1) := Nat.mul_pos hB (Nat.succ_pos j)
  omega

lemma first_index_rank_bin_le (N nbins j : ℕ) (hN : 0 < N) (hB : 0 < nbins) :
    first_index N nbins (rank_bin N nbins j) ≤ j := by
  unfold first_index rank_bin
  rw [← Nat.lt_add_one_iff, Nat.div_lt_iff_lt_mul hB]
  have key : N * ((nbins * (j + 1) - 1) / N) ≤ nbins * (j + 1) - 1 := by
    rw [mul_comm]
    exact Nat.div_mul_le_self _ _
  have hc : 0 < nbins * (j + 1) := Nat.mul_pos hB (Nat.succ_pos j)
  have hcomm : nbins * (j + 1) = (j + 1) * nbins := mul_comm _ _
  omega

lemma lt_first_index_rank_bin_succ (N nbins j : ℕ) (hN : 0 < N) (hB : 0 < nbins) :
    j < first_index N nbins (rank_bin N nbins j + 1) := by
  unfold first_index rank_bin
  rw [Nat.lt_iff_add_one_le, Nat.le_div_iff_mul_le hB]
  have key : nbins * (j + 1) - 1 < ((nbins * (j + 1) - 1) / N + 1) * N := by
    rw [← Nat.div_lt_iff_lt_mul hN]
    exact Nat.lt_succ_self _
  have hc : 0 < nbins * (j + 1) := Nat.mul_pos hB (Nat.succ_pos j)
  have hcomm : nbins * (j + 1) = (j + 1) * nbins := mul_comm _ _
  have hcomm2 : ((nbins * (j + 1) - 1) / N + 1) * N
      = N * ((nbins * (j + 1) - 1) / N + 1) := mul_comm _ _
  omega

lemma rank_bin_unique (N nbins j : ℕ) (hN : 0 < N) (hB : 0 < nbins) {i : ℕ}
    (h1 : first_index N nbins i ≤ j) (h2 : j < first_index N nbins (i + 1)) :
    i = rank_bin N nbins j := by
  unfold first_index at h1 h2
  unfold rank_bin
  have hlow : N * i < (j + 1) * nbins := by
    rw [← Nat.div_lt_iff_lt_mul hB]
    omega
  have hhigh : (j + 1) * nbins ≤ N * (i + 1) := by
    rw [← Nat.le_div_iff_mul_le hB]
    omega
  have hle : i ≤ (nbins * (j + 1) - 1) / N := by
    rw [Nat.le_div_iff_mul_le hN]
    have hcomm : nbins * (j + 1) = (j + 1) * nbins := mul_comm _ _
    have hcomm2 : i * N = N * i := mul_comm _ _
    omega
  have hge : (nbins * (j + 1) - 1) / N ≤ i := by
    rw [← Nat.lt_add_one_iff, Nat.div_lt_iff_lt_mul hN]
    have hcomm : nbins * (j + 1) = (j + 1) * nbins := mul_comm _ _
    have hcomm2 : (i + 1) * N = N * (i + 1) := mul_comm _ _
    omega
  omega

/-- The central fact about the assignment loop: the sample of sorted rank
`j` is stored with bin index `rank_bin N nbins j`, the unique bin whose rank
interval contains `j`. -/
lemma bin_n_at_rank (x : List ℚ) (nbins : ℕ) (hB : 0 < nbins) {j : ℕ}
    (hj : j < x.length) :
    bin_n x nbins ((argsort x).getD j 0) = rank_bin x.length nbins j := by
  have hN : 0 < x.length := lt_of_le_of_lt (Nat.zero_le j) hj
  unfold bin_n
  apply foldl_write_of_unique
  · exact List.mem_range.2 (rank_bin_lt _ _ _ hN hB hj)
  · exact (mem_slice_iff x nbins _ hj).2
      ⟨first_index_rank_bin_le _ _ _ hN hB, lt_first_index_rank_bin_succ _ _ _ hN hB⟩
  · intro j2 _ hpj
    have h := (mem_slice_iff x nbins j2 hj).1 hpj
    exact rank_bin_unique _ _ _ hN hB h.1 h.2

/-- Every position below `N` is the stored index of exactly one sorted
rank. -/
lemma exists_rank (x : List ℚ) {p : ℕ} (hp : p < x.length) :
    ∃ j, j < x.length ∧ (argsort x).getD j 0 = p := by
  have hmem : p ∈ argsort x := (mem_argsort x p).2 hp
  obtain ⟨j, hj, hval⟩ := List.mem_iff_getElem.1 hmem
  refine ⟨j, ?_, ?_⟩
  · rw [argsort_length] at hj; exact hj
  · rw [List.getD_eq_getElem _ _ hj]; exact hval

lemma bin_n_lt (x : List ℚ) (nbins : ℕ) (hB : 0 < nbins) {p : ℕ}
    (hp : p < x.length) : bin_n x nbins p < nbins := by
  obtain ⟨j, hj, hval⟩ := exists_rank x hp
  rw [← hval, bin_n_at_rank x nbins hB hj]
  exact rank_bin_lt _ _ _ (lt_of_le_of_lt (Nat.zero_le j) hj) hB hj

lemma foldl_max_init_le : ∀ (t : List ℚ) (a : ℚ), a ≤ t.foldl max a := by
  intro t
  induction t with
  | nil => intro a; exact le_refl a
  | cons h t ih => intro a; exact le_trans (le_max_left a h) (ih (max a h))

lemma foldl_max_mem_le : ∀ (t : List ℚ) (a v : ℚ), v ∈ t → v ≤ t.foldl max a := by
  intro t
  induction t with
  | nil => intro a v hv; exact absurd hv (List.not_mem_nil v)
  | cons h t ih =>
    intro a v hv
    rcases List.mem_cons.1 hv with rfl | hv
    · exact le_trans (le_max_right a v) (foldl_max_init_le t _)
    · exact ih _ v hv

lemma foldl_max_mem : ∀ (t : List ℚ) (a : ℚ), t.foldl max a ∈ a :: t := by
  intro t
  induction t with
  | nil => intro a; exact List.mem_cons_self a []
  | cons h t ih =>
    intro a
    rcases List.mem_cons.1 (ih (max a h)) with heq | hmem
    · rcases max_choice a h with hc | hc
      · rw [List.foldl_cons, heq, hc]; exact List.mem_cons_self _ _
      · rw [List.foldl_cons, heq, hc]
        exact List.mem_cons_of_mem _ (List.mem_cons_self _ _)
    · exact List.mem_cons_of_mem _ (List.mem_cons_of_mem _ hmem)

lemma foldl_min_init_le : ∀ (t : List ℚ) (a : ℚ), t.foldl min a ≤ a := by
  intro t
  induction t with
  | nil => intro a; exact le_refl a
  | cons h t ih => intro a; exact le_trans (ih (min a h)) (min_le_left a h)

lemma foldl_min_mem_le : ∀ (t : List ℚ) (a v : ℚ), v ∈ t → t.foldl min a ≤ v := by
  intro t
  induction t with
  | nil => intro a v hv; exact absurd hv (List.not_mem_nil v)
  | cons h t ih =>
    intro a v hv
    rcases List.mem_cons.1 hv with rfl | hv
    · exact le_trans (foldl_min_init_le t _) (min_le_right a v)
    · exact ih _ v hv

lemma foldl_min_mem : ∀ (t : List ℚ) (a : ℚ), t.foldl min a ∈ a :: t := by
  intro t
  induction t with
  | nil => intro a; exact List.mem_cons_self a []
  | cons h t ih =>
    intro a
    rcases List.mem_cons.1 (ih (min a h)) with heq | hmem
    · rcases min_choice a h with hc | hc
      · rw [List.foldl_cons, heq, hc]; exact List.mem_cons_self _ _
      · rw [List.foldl_cons, heq, hc]
        exact List.mem_cons_of_mem _ (List.mem_cons_self _ _)
    · exact List.mem_cons_of_mem _ (List.mem_cons_of_mem _ hmem)

lemma x_max_raw_mem (x : List ℚ) (hx : x ≠ []) : x_max_raw x ∈ x := by
  match x with
  | [] => exact absurd rfl hx
  | h :: t => exact foldl_max_mem t h

lemma le_x_max_raw (x : List ℚ) {v : ℚ} (hv : v ∈ x) : v ≤ x_max_raw x := by
  match x with
  | [] => exact absurd hv (List.not_mem_nil v)
  | h :: t =>
    rcases List.mem_cons.1 hv with rfl | hvt
    · exact foldl_max_init_le t v
    · exact foldl_max_mem_le t h v hvt

lemma x_min_mem (x : List ℚ) (hx : x ≠ []) : x_min x ∈ x := by
  match x with
  | [] => exact absurd rfl hx
  | h :: t => exact foldl_min_mem t h

lemma x_min_le (x : List ℚ) {v : ℚ} (hv : v ∈ x) : x_min x ≤ v := by
  match x with
  | [] => exact absurd hv (List.not_mem_nil v)
  | h :: t =>
    rcases List.mem_cons.1 hv with rfl | hvt
    · exact foldl_min_init_le t v
    · exact foldl_min_mem_le t h v hvt

/-- Values read off through `argsort` in rank order are nondecreasing. -/
lemma sorted_rank_le (x : List ℚ) {j j' : ℕ} (hj' : j' < x.length)
    (hle : j ≤ j') :
    x.getD ((argsort x).getD j 0) 0 ≤ x.getD ((argsort x).getD j' 0) 0 := by
  rcases eq_or_lt_of_le hle with rfl | hlt
  · exact le_refl _
  · have hs := argsort_sorted x
    rw [List.pairwise_iff_getElem] at hs
    have h1 : j < (argsort x).length := by rw [argsort_length]; omega
    have h2 : j' < (argsort x).length := by rw [argsort_length]; exact hj'
    have := hs j j' h1 h2 hlt
    rw [List.getD_eq_getElem _ _ h1, List.getD_eq_getElem _ _ h2]
    exact this

/-- The sample of last sorted rank is the maximum sample. -/
lemma sorted_last_eq_max (x : List ℚ) (hx : x ≠ []) :
    x.getD ((argsort x).getD (x.length - 1) 0) 0 = x_max_raw x := by
  have hN : 0 < x.length := List.length_pos.2 hx
  apply le_antisymm
  · apply le_x_max_raw
    have hlt := argsort_getD_lt x (j := x.length - 1) (by omega)
    rw [List.getD_eq_getElem _ _ hlt]
    exact List.getElem_mem hlt
  · obtain ⟨p, hp, hval⟩ := List.mem_iff_getElem.1 (x_max_raw_mem x hx)
    obtain ⟨j, hj, hjp⟩ := exists_rank x hp
    have h1 : x_max_raw x = x.getD ((argsort x).getD j 0) 0 := by
      rw [hjp, List.getD_eq_getElem _ _ hp, hval]
    rw [h1]
    exact sorted_rank_le x (by omega) (by omega)

lemma rank_bin_last (N nbins : ℕ) (hN : 0 < N) (hB : 0 < nbins) :
    rank_bin N nbins (N - 1) = nbins - 1 := by
  symm
  apply rank_bin_unique N nbins (N - 1) hN hB
  · have h := first_index_lt N nbins hN (i := nbins - 1) (by omega)
    omega
  · rw [show nbins - 1 + 1 = nbins from by omega, first_index_self N nbins hB]
    omega

/-- Claim C1: with a non-empty sample list and `nbins ≥ 1`, every sample
position stores a bin index in `[0, nbins)`; the stored index of the sample
of sorted rank `j` is exactly the bin whose rank interval contains `j` (so
every sample was genuinely assigned by the loop, none is a leftover
default); and the maximum sample is stored with the last bin index
`nbins - 1`. -/
theorem claim1_bin_assignment (x : List ℚ) (nbins : ℕ) (hx : x ≠ [])
    (hB : 1 ≤ nbins) :
    (∀ p, p < x.length → bin_n x nbins p < nbins) ∧
    (∀ j, j < x.length →
      first_index x.length nbins (bin_n x nbins ((argsort x).getD j 0)) ≤ j ∧
      j < first_index x.length nbins (bin_n x nbins ((argsort x).getD j 0) + 1)) ∧
    x.getD ((argsort x).getD (x.length - 1) 0) 0 = x_max_raw x ∧
    bin_n x nbins ((argsort x).getD (x.length - 1) 0) = nbins - 1 := by
  have hN : 0 < x.length := List.length_pos.2 hx
  refine ⟨?_, ?_, ?_, ?_⟩
  · intro p hp
    exact bin_n_lt x nbins hB hp
  · intro j hj
    rw [bin_n_at_rank x nbins hB hj]
    exact ⟨first_index_rank_bin_le _ _ _ hN hB,
      lt_first_index_rank_bin_succ _ _ _ hN hB⟩
  · exact sorted_last_eq_max x hx
  · rw [bin_n_at_rank x nbins hB (by omega)]
    exact rank_bin_last _ _ hN hB

/-- Witness for C1 at `x = [1, 3, 2]`, `nbins = 2`: the maximum sample `3`
sits at position `1` and is assigned the last bin. -/
theorem claim1_bin_assignment_witness :
    ([1, 3, 2] : List ℚ) ≠ [] ∧ 1 ≤ 2 ∧
      bin_n [1, 3, 2] 2 ((argsort [1, 3, 2]).getD 2 0) = 1 :=
  ⟨by decide, by decide,
    (claim1_bin_assignment [1, 3, 2] 2 (by decide) (by decide)).2.2.2⟩

lemma map_getD_range {α : Type} (l : List α) (d : α) :
    (List.range l.length).map (fun j => l.getD j d) = l := by
  apply List.ext_getElem
  · simp
  · intro n h1 h2
    simp only [List.getElem_map, List.getElem_range]
    rw [List.getD_eq_getElem _ _ h2]

lemma rank_bin_eq_iff (N nbins j i : ℕ) (hN : 0 < N) (hB : 0 < nbins) :
    rank_bin N nbins j = i ↔
      first_index N nbins i ≤ j ∧ j < first_index N nbins (i + 1) := by
  constructor
  · rintro rfl
    exact ⟨first_index_rank_bin_le _ _ _ hN hB,
      lt_first_index_rank_bin_succ _ _ _ hN hB⟩
  · rintro ⟨h1, h2⟩
    exact (rank_bin_unique _ _ _ hN hB h1 h2).symm

lemma countP_range_interval (N a b : ℕ) :
    (List.range N).countP (fun j => decide (a ≤ j ∧ j < b))
      = min b N - min a N := by
  induction N with
  | zero => simp
  | succ n ih =>
    rw [List.range_succ, List.countP_append, ih]
    by_cases h : a ≤ n ∧ n < b
    · have hc : ([n].countP fun j => decide (a ≤ j ∧ j < b)) = 1 := by
        simp [List.countP_cons, h]
      rw [hc]
      omega
    · have hc : ([n].countP fun j => decide (a ≤ j ∧ j < b)) = 0 := by
        simp only [List.countP_cons, List.countP_nil]
        simp [h]
      rw [hc]
      rw [Decidable.not_and_iff_or_not] at h
      rcases h with h | h <;> omega

/-- The population of bin `i < nbins` is the length of its rank interval. -/
lemma bin_population_eq (x : List ℚ) (nbins : ℕ) (hx : x ≠ [])
    (hB : 0 < nbins) {i : ℕ} (hi : i < nbins) :
    bin_population x nbins i =
      first_index x.length nbins (i + 1) - first_index x.length nbins i := by
  have hN : 0 < x.length := List.length_pos.2 hx
  unfold bin_population
  rw [((argsort_perm x).countP_eq _).symm]
  have step2 : argsort x
      = (List.range (argsort x).length).map (fun j => (argsort x).getD j 0) :=
    (map_getD_range _ 0).symm
  conv_lhs => rw [step2]
  rw [List.countP_map, argsort_length]
  have step3 : ∀ j ∈ List.range x.length,
      (((fun p => decide (bin_n x nbins p = i))
        ∘ (fun j => (argsort x).getD j 0)) j = true
      ↔ (fun j => decide (first_index x.length nbins i ≤ j
          ∧ j < first_index x.length nbins (i + 1))) j = true) := by
    intro j hj
    have hjN := List.mem_range.1 hj
    simp only [Function.comp, decide_eq_true_eq]
    rw [bin_n_at_rank x nbins hB hjN]
    exact rank_bin_eq_iff _ _ _ _ hN hB
  rw [List.countP_congr step3, countP_range_interval]
  have h1 : first_index x.length nbins (i + 1) ≤ x.length :=
    first_index_le _ _ hB (by omega)
  have h2 : first_index x.length nbins i ≤ x.length :=
    first_index_le _ _ hB (by omega)
  rw [min_eq_left h1, min_eq_left h2]

lemma pop_lower (N nbins i : ℕ) (hB : 0 < nbins) :
    N / nbins ≤ first_index N nbins (i + 1) - first_index N nbins i := by
  unfold first_index
  have key : (N * i / nbins + N / nbins) * nbins ≤ N * i + N := by
    rw [add_mul]
    have a1 : N * i / nbins * nbins ≤ N * i := Nat.div_mul_le_self _ _
    have a2 : N / nbins * nbins ≤ N := Nat.div_mul_le_self _ _
    omega
  have h := (Nat.le_div_iff_mul_le hB).2 key
  have he : N * (i + 1) = N * i + N := by ring
  rw [he]
  omega

lemma ceil_div_eq (N nbins : ℕ) (hB : 0 < nbins) :
    (N + nbins - 1) / nbins
      = N / nbins + (if N % nbins = 0 then 0 else 1) := by
  have h1 : nbins - 1 < nbins := by omega
  have e1 : N + nbins - 1 = N + (nbins - 1) := by omega
  rw [e1, Nat.add_div hB, Nat.div_eq_of_lt h1, Nat.mod_eq_of_lt h1]
  have h2 : N % nbins < nbins := Nat.mod_lt _ hB
  split_ifs with hc hr hr <;> omega

lemma pop_upper (N nbins i : ℕ) (hB : 0 < nbins) :
    first_index N nbins (i + 1) - first_index N nbins i
      ≤ (N + nbins - 1) / nbins := by
  unfold first_index
  have he : N * (i + 1) = N * i + N := by ring
  have hadd : (N * i + N) / nbins
      = N * i / nbins + N / nbins
        + if nbins ≤ N * i % nbins + N % nbins then 1 else 0 :=
    Nat.add_div hB
  have hceil := ceil_div_eq N nbins hB
  have hm1 : N * i % nbins < nbins := Nat.mod_lt _ hB
  rcases eq_or_ne (N % nbins) 0 with hr | hr
  · have hite : (if nbins ≤ N * i % nbins + N % nbins then 1 else 0) = 0 := by
      rw [if_neg]
      omega
    have hA : N * (i + 1) / nbins = N * i / nbins + N / nbins := by
      rw [he, hadd, hite, Nat.add_zero]
    have hC : (N + nbins - 1) / nbins = N / nbins := by
      rw [hceil, if_pos hr, Nat.add_zero]
    rw [hA, hC, Nat.add_sub_cancel_left]
  · have hA : N * (i + 1) / nbins ≤ N * i / nbins + N / nbins + 1 := by
      rw [he, hadd]
      split_ifs <;> omega
    have hC : (N + nbins - 1) / nbins = N / nbins + 1 := by
      rw [hceil, if_neg hr]
    rw [hC, Nat.sub_le_iff_le_add]
    exact hA.trans (le_of_eq (by ring))

/-- Values gathered from `x` through `argsort x` form the sorted copy
of `x`. -/
lemma argsort_gather (x : List ℚ) :
    (argsort x).map (fun p => x.getD p 0) = List.insertionSort (· ≤ ·) x := by
  apply List.eq_of_perm_of_sorted (r := (· ≤ ·))
  · have p1 := (argsort_perm x).map (fun p => x.getD p 0)
    rw [map_getD_range x 0] at p1
    exact p1.trans (List.perm_insertionSort _ x).symm
  · exact (List.pairwise_map).2 (argsort_sorted x)
  · exact List.sorted_insertionSort _ x

/-- For `i < nbins`, boundary `i` is the sorted value of rank
`first_index i`. -/
lemma boundary_rank (x : List ℚ) (nbins : ℕ) (hx : x ≠ []) (hB : 0 < nbins)
    {i : ℕ} (hi : i < nbins) :
    (bin_left_boundary_i x nbins).getD i 0
      = (List.insertionSort (· ≤ ·) x).getD
          (first_index x.length nbins i) 0 := by
  have hN : 0 < x.length := List.length_pos.2 hx
  have hfi : first_index x.length nbins i < x.length :=
    first_index_lt _ _ hN hi
  unfold bin_left_boundary_i
  rw [List.getD_append _ _ _ _ (by simp [hi])]
  have hi2 : i < ((List.range nbins).map (fun i =>
      x.getD ((argsort x).getD (first_index x.length nbins i) 0) 0)).length := by
    simp [hi]
  rw [List.getD_eq_getElem _ _ hi2]
  simp only [List.getElem_map, List.getElem_range]
  rw [← argsort_gather x]
  have hlen : first_index x.length nbins i
      < ((argsort x).map (fun p => x.getD p 0)).length := by
    rw [List.length_map, argsort_length]
    exact hfi
  rw [List.getD_eq_getElem _ _ hlen]
  simp only [List.getElem_map]
  have hlen2 : first_index x.length nbins i < (argsort x).length := by
    rw [argsort_length]
    exact hfi
  rw [List.getD_eq_getElem _ _ hlen2]

/-- Claim C2: with `1 ≤ nbins ≤ N`, every bin receives either
`⌊N / nbins⌋` or `⌈N / nbins⌉` samples, and the left boundary of bin `i`
is the sorted sample of rank `⌊N * i / nbins⌋`. -/
theorem claim2_population_and_boundaries (x : List ℚ) (nbins : ℕ)
    (hx : x ≠ []) (hB1 : 1 ≤ nbins) (hBN : nbins ≤ x.length) :
    (∀ i, i < nbins → bin_population x nbins i = x.length / nbins ∨
      bin_population x nbins i = (x.length + nbins - 1) / nbins) ∧
    (∀ i, i < nbins → (bin_left_boundary_i x nbins).getD i 0
      = (List.insertionSort (· ≤ ·) x).getD (x.length * i / nbins) 0) := by
  constructor
  · intro i hi
    rw [bin_population_eq x nbins hx hB1 hi]
    have hlow := pop_lower x.length nbins i hB1
    have hup := pop_upper x.length nbins i hB1
    have hceil := ceil_div_eq x.length nbins hB1
    split_ifs at hceil <;> omega
  · intro i hi
    exact boundary_rank x nbins hx hB1 hi

/-- Witness for C2 at `x = [1, 3, 2]`, `nbins = 2`: bin 0 holds
`⌊3 / 2⌋ = 1` sample and its boundary is the smallest sample. -/
theorem claim2_population_and_boundaries_witness :
    ([1, 3, 2] : List ℚ) ≠ [] ∧ 1 ≤ 2 ∧ 2 ≤ 3 ∧
      (bin_population [1, 3, 2] 2 0 = 3 / 2 ∨
        bin_population [1, 3, 2] 2 0 = (3 + 2 - 1) / 2) :=
  ⟨by decide, by decide, by decide,
    (claim2_population_and_boundaries [1, 3, 2] 2 (by decide) (by decide)
      (by decide)).1 0 (by decide)⟩

lemma boundary_last (x : List ℚ) (nbins : ℕ) :
    (bin_left_boundary_i x nbins).getD nbins 0 = x_max x := by
  unfold bin_left_boundary_i
  rw [List.getD_append_right _ _ _ _ (by simp)]
  simp

lemma x_min_lt_x_max_raw (x : List ℚ) (hnd : x.Nodup) (h2 : 2 ≤ x.length) :
    x_min x < x_max_raw x := by
  match x, hnd, h2 with
  | a :: b :: t, hnd, _ =>
    have hab : a ≠ b := by
      intro h
      exact (List.nodup_cons.1 hnd).1 (h ▸ List.mem_cons_self b t)
    have hma : a ∈ a :: b :: t := List.mem_cons_self _ _
    have hmb : b ∈ a :: b :: t := List.mem_cons_of_mem _ (List.mem_cons_self _ _)
    rcases lt_or_ge (x_min (a :: b :: t)) (x_max_raw (a :: b :: t)) with h | h
    · exact h
    · exact absurd (le_antisymm
        (le_trans (le_x_max_raw _ hma) (h.trans (x_min_le _ hmb)))
        (le_trans (le_x_max_raw _ hmb) (h.trans (x_min_le _ hma)))) hab

lemma x_max_raw_lt_x_max (x : List ℚ) (hlt : x_min x < x_max_raw x) :
    x_max_raw x < x_max x := by
  unfold x_max
  have h1 : 0 < x_max_raw x - x_min x := by linarith
  have h2 : 0 < (x_max_raw x - x_min x) * (1 / 100000) :=
    mul_pos h1 (by norm_num)
  linarith

/-- Counterexample to C3 as stated: on the duplicate sample list `[0, 0]`
with one bin, the two boundaries are both `0`, so the boundary list is not
strictly increasing. -/
theorem claim3_counterexample :
    ¬ ((bin_left_boundary_i [0, 0] 1).getD 0 0
        < (bin_left_boundary_i [0, 0] 1).getD 1 0) := by
  norm_num [bin_left_boundary_i, argsort, x_max, x_max_raw, x_min, first_index,
    List.range_succ]

/-- Claim C3, amended: the boundaries are strictly increasing provided the
sample values are pairwise distinct (at least two of them) and
`1 ≤ nbins ≤ N`; with duplicate values or `nbins > N` adjacent boundaries
can coincide. -/
theorem claim3_boundaries_strict_amended (x : List ℚ) (nbins : ℕ)
    (hnd : x.Nodup) (h2 : 2 ≤ x.length) (hB1 : 1 ≤ nbins)
    (hBN : nbins ≤ x.length) :
    ∀ i, i < nbins → (bin_left_boundary_i x nbins).getD i 0
      < (bin_left_boundary_i x nbins).getD (i + 1) 0 := by
  have hN : 0 < x.length := by omega
  have hx : x ≠ [] := List.ne_nil_of_length_pos hN
  have hs_nodup : (List.insertionSort (· ≤ ·) x).Nodup :=
    ((List.perm_insertionSort _ x).nodup_iff).2 hnd
  have hs_sorted := List.sorted_insertionSort (α := ℚ) (· ≤ ·) x
  have hs_len : (List.insertionSort (· ≤ ·) x).length = x.length :=
    List.length_insertionSort _ _
  intro i hi
  have hfi_lt : first_index x.length nbins i < x.length :=
    first_index_lt _ _ hN hi
  have hstep : first_index x.length nbins i
      < first_index x.length nbins (i + 1) := by
    have hlow := pop_lower x.length nbins i hB1
    have hone : 1 ≤ x.length / nbins := (Nat.one_le_div_iff hB1).2 hBN
    have hmono := first_index_mono x.length nbins (Nat.le_succ i)
    omega
  rcases Nat.lt_or_ge (i + 1) nbins with hi1 | hi1
  · rw [boundary_rank x nbins hx hB1 hi, boundary_rank x nbins hx hB1 hi1]
    have hfi1_lt : first_index x.length nbins (i + 1) < x.length :=
      first_index_lt _ _ hN hi1
    have ha : first_index x.length nbins i
        < (List.insertionSort (· ≤ ·) x).length := by omega
    have hb : first_index x.length nbins (i + 1)
        < (List.insertionSort (· ≤ ·) x).length := by omega
    rw [List.getD_eq_getElem _ _ ha, List.getD_eq_getElem _ _ hb]
    have hle : (List.insertionSort (· ≤ ·) x)[first_index x.length nbins i]
        ≤ (List.insertionSort (· ≤ ·) x)[first_index x.length nbins (i + 1)] := by
      have hp := List.pairwise_iff_getElem.1 hs_sorted
      exact hp _ _ ha hb hstep
    have hne : (List.insertionSort (· ≤ ·) x)[first_index x.length nbins i]
        ≠ (List.insertionSort (· ≤ ·) x)[first_index x.length nbins (i + 1)] := by
      intro h
      exact absurd ((List.Nodup.getElem_inj_iff hs_nodup).1 h) (by omega)
    exact lt_of_le_of_ne hle hne
  · have hieq : i + 1 = nbins := by omega
    rw [hieq, boundary_last, boundary_rank x nbins hx hB1 hi]
    have ha : first_index x.length nbins i
        < (List.insertionSort (· ≤ ·) x).length := by omega
    have hmem : (List.insertionSort (· ≤ ·) x).getD
        (first_index x.length nbins i) 0 ∈ x := by
      rw [List.getD_eq_getElem _ _ ha]
      exact ((List.perm_insertionSort _ x).mem_iff).1 (List.getElem_mem ha)
    exact lt_of_le_of_lt (le_x_max_raw x hmem)
      (x_max_raw_lt_x_max x (x_min_lt_x_max_raw x hnd h2))

/-- Witness for the amended C3 at `x = [1, 3, 2]`, `nbins = 2`: the first
two boundaries `1 < 2` are strictly increasing. -/
theorem claim3_boundaries_strict_amended_witness :
    ([1, 3, 2] : List ℚ).Nodup ∧ 2 ≤ 3 ∧ 1 ≤ 2 ∧ 2 ≤ 3 ∧
      (bin_left_boundary_i [1, 3, 2] 2).getD 0 0
        < (bin_left_boundary_i [1, 3, 2] 2).getD 1 0 :=
  ⟨by decide, by decide, by decide, by decide,
    claim3_boundaries_strict_amended [1, 3, 2] 2 (by decide) (by decide)
      (by decide) (by decide) 0 (by decide)⟩

/-- Counterexample to C4 as stated: on the single-sample list `[0]` the
final boundary equals `max(x) + 1e-5 * (max(x) - min(x)) = 0 = max(x)`, so
the maximum sample is not strictly below it. -/
theorem claim4_counterexample :
    ¬ (x_max_raw [0] < (bin_left_boundary_i [0] 1).getD 1 0) := by
  norm_num [bin_left_boundary_i, argsort, x_max, x_max_raw, x_min, first_index]

/-- Claim C4, amended: the final boundary is always
`max(x) + 1e-5 * (max(x) - min(x))` (`x_max_raw`/`x_min` really are the
maximum/minimum), and the maximum sample is strictly below it provided
`min(x) < max(x)`; when all samples are equal the final boundary equals the
maximum sample. -/
theorem claim4_final_boundary_amended (x : List ℚ) (nbins : ℕ)
    (hx : x ≠ []) :
    (bin_left_boundary_i x nbins).getD nbins 0
        = x_max_raw x + (x_max_raw x - x_min x) * (1 / 100000) ∧
    x_max_raw x ∈ x ∧ (∀ v ∈ x, v ≤ x_max_raw x) ∧
    x_min x ∈ x ∧ (∀ v ∈ x, x_min x ≤ v) ∧
    (x_min x < x_max_raw x →
      x_max_raw x < (bin_left_boundary_i x nbins).getD nbins 0) := by
  refine ⟨boundary_last x nbins, x_max_raw_mem x hx, ?_, x_min_mem x hx, ?_, ?_⟩
  · intro v hv
    exact le_x_max_raw x hv
  · intro v hv
    exact x_min_le x hv
  · intro hlt
    rw [boundary_last x nbins]
    exact x_max_raw_lt_x_max x hlt

/-- Witness for the amended C4 at `x = [1, 3, 2]`: the maximum `3` is
strictly below the final boundary. -/
theorem claim4_final_boundary_amended_witness :
    ([1, 3, 2] : List ℚ) ≠ [] ∧
      (x_min [1, 3, 2] < x_max_raw [1, 3, 2] →
        x_max_raw [1, 3, 2] < (bin_left_boundary_i [1, 3, 2] 2).getD 2 0) :=
  ⟨by decide, (claim4_final_boundary_amended [1, 3, 2] 2 (by decide)).2.2.2.2.2⟩

/-- Counterexample to C9 as stated: with `nbins = 0` and the non-empty
input `[0]`, `construct_nonuniform_bins` returns a result instead of
signalling any error. -/
theorem claim9_counterexample :
    (construct_nonuniform_bins [0] 0).isSome = true := by
  rfl

/-- Claim C9, amended: `construct_nonuniform_bins` performs no bin-count
validation at all — for every `nbins` (including `0`) it returns a result
exactly when the sample list is non-empty, and on an empty list it fails
with the numpy reduction error (modelled `none`), not with a dedicated
`InvalidArgumentError`. -/
theorem claim9_no_validation_amended (x : List ℚ) (nbins : ℕ) :
    (construct_nonuniform_bins x nbins).isSome ↔ x ≠ [] := by
  cases x <;> simp [construct_nonuniform_bins]

end OpticalTrap

namespace PymbarDatasets

lemma psum_zero (N_k : List ℕ) : psum N_k 0 = 0 := rfl

lemma psum_cons_succ (c : ℕ) (t : List ℕ) (i : ℕ) :
    psum (c :: t) (i + 1) = c + psum t i := by
  simp [psum, List.take_succ_cons]

lemma foldl_append_eq (g : ℕ → List ℕ) :
    ∀ (L : List ℕ) (a : List ℕ),
      L.foldl (fun s i => s ++ g i) a = a ++ L.flatMap g := by
  intro L
  induction L with
  | nil => intro a; simp
  | cons i L ih =>
    intro a
    rw [List.foldl_cons, ih, List.flatMap_cons, List.append_assoc]

lemma get_sn_eq_flatMap (N_k : List ℕ) :
    get_sn N_k = (List.range N_k.length).flatMap
      (fun i => List.replicate (N_k.getD i 0) i) := by
  unfold get_sn
  rw [foldl_append_eq, List.nil_append]

lemma get_sn_cons (c : ℕ) (t : List ℕ) :
    get_sn (c :: t) = List.replicate c 0 ++ (get_sn t).map (· + 1) := by
  rw [get_sn_eq_flatMap, get_sn_eq_flatMap, List.length_cons,
    List.range_succ_eq_map, List.flatMap_cons, List.flatMap_map,
    List.map_flatMap]
  simp [List.map_replicate]

lemma get_sn_length (N_k : List ℕ) : (get_sn N_k).length = N_k.sum := by
  induction N_k with
  | nil => rfl
  | cons c t ih =>
    rw [get_sn_cons, List.length_append, List.length_replicate,
      List.length_map, ih, List.sum_cons]

/-- The indexing law of `get_sn`: pooled sample `n` carries state `i`
exactly when `n` falls in the contiguous block of state `i`. -/
lemma get_sn_getD_iff :
    ∀ (N_k : List ℕ) (n i : ℕ), n < N_k.sum →
      ((get_sn N_k).getD n 0 = i ↔ psum N_k i ≤ n ∧ n < psum N_k (i + 1)) := by
  intro N_k
  induction N_k with
  | nil => intro n i hn; simp at hn
  | cons c t ih =>
    intro n i hn
    rw [List.sum_cons] at hn
    rw [get_sn_cons]
    by_cases hnc : n < c
    · rw [List.getD_append _ _ _ _ (by simp [hnc])]
      have hval : (List.replicate c (0 : ℕ)).getD n 0 = 0 := by
        rw [List.getD_eq_getElem _ _ (by simp [hnc])]
        exact List.getElem_replicate ..
      rw [hval]
      cases i with
      | zero => simp [psum_zero, psum_cons_succ, psum_zero, hnc]
      | succ i2 =>
        have hge : c ≤ psum (c :: t) (i2 + 1) := by
          rw [psum_cons_succ]; omega
        constructor
        · intro h; exact absurd h.symm (Nat.succ_ne_zero i2)
        · rintro ⟨h1, _⟩; omega
    · push_neg at hnc
      have hlen : (List.replicate c (0 : ℕ)).length ≤ n := by simp [hnc]
      rw [List.getD_append_right _ _ _ _ hlen, List.length_replicate]
      have hsub : n - c < t.sum := by omega
      have hsub_len : n - c < (get_sn t).length := by
        rw [get_sn_length]; exact hsub
      have hmap : ((get_sn t).map (· + 1)).getD (n - c) 0
          = (get_sn t).getD (n - c) 0 + 1 := by
        rw [List.getD_eq_getElem _ _ (by simp [hsub_len]),
          List.getD_eq_getElem _ _ hsub_len, List.getElem_map]
      rw [hmap]
      cases i with
      | zero =>
        constructor
        · intro h; exact absurd h (Nat.succ_ne_zero _)
        · rintro ⟨_, h2⟩
          rw [psum_cons_succ, psum_zero] at h2
          omega
      | succ i2 =>
        have hiff := ih (n - c) i2 hsub
        rw [psum_cons_succ, psum_cons_succ]
        constructor
        · intro h
          have : (get_sn t).getD (n - c) 0 = i2 := by omega
          have h2 := hiff.1 this
          omega
        · rintro ⟨h1, h2⟩
          have h3 : psum t i2 ≤ n - c ∧ n - c < psum t (i2 + 1) := by omega
          have := hiff.2 h3
          omega

/-- Claim C6: for every dataset whose shapes are consistent (`u_kn` is
`K × N` rectangular, `N_k` has length `K`, `s_n` has length `N`), `save`
followed by `load_from_hdf` reproduces all three arrays exactly. -/
theorem claim6_roundtrip (u_kn : List (List ℚ)) (N_k s_n : List ℕ)
    (hrect : ∀ row ∈ u_kn, row.length = (u_kn.headD []).length)
    (hK : N_k.length = u_kn.length)
    (hN : s_n.length = (u_kn.headD []).length) :
    ∃ f, save u_kn N_k (some s_n) = some f
      ∧ load_from_hdf f = (u_kn, N_k, s_n) := by
  refine ⟨⟨u_kn, N_k, s_n⟩, ?_, rfl⟩
  have hrect2 : ∀ row ∈ u_kn, row.length = (u_kn.head?.getD []).length := by
    simpa using hrect
  unfold save ensure_type_mat ensure_type_vec
  simp [hrect2, hK, hN]
  rw [if_pos hrect2]

/-- Witness for C6 at a concrete `2 × 2` dataset. -/
theorem claim6_roundtrip_witness :
    (∀ row ∈ [[(1 : ℚ), 2], [3, 4]],
      row.length = ([[(1 : ℚ), 2], [3, 4]].headD []).length) ∧
    ([1, 1] : List ℕ).length = [[(1 : ℚ), 2], [3, 4]].length ∧
    ([0, 1] : List ℕ).length = ([[(1 : ℚ), 2], [3, 4]].headD []).length ∧
    (∃ f, save [[(1 : ℚ), 2], [3, 4]] [1, 1] (some [0, 1]) = some f
      ∧ load_from_hdf f = ([[(1 : ℚ), 2], [3, 4]], [1, 1], [0, 1])) :=
  ⟨by decide, by decide, by decide,
    claim6_roundtrip [[(1 : ℚ), 2], [3, 4]] [1, 1] [0, 1]
      (by decide) (by decide) (by decide)⟩

/-- Claim C7: `get_sn` returns a vector of length `sum(N_k)` assigning
sample `n` to state `i` exactly when `n` lies in state `i`'s contiguous
block `[psum i, psum (i+1))`, and `save` stores exactly `get_sn N_k` as
`s_n` whenever `s_n` is absent. -/
theorem claim7_get_sn_contiguous (N_k : List ℕ) :
    (get_sn N_k).length = N_k.sum ∧
    (∀ n i, n < N_k.sum →
      ((get_sn N_k).getD n 0 = i ↔ psum N_k i ≤ n ∧ n < psum N_k (i + 1))) ∧
    (∀ u_kn : List (List ℚ),
      (∀ row ∈ u_kn, row.length = (u_kn.headD []).length) →
      N_k.length = u_kn.length →
      (get_sn N_k).length = (u_kn.headD []).length →
      ∃ f, save u_kn N_k none = some f ∧ f.s_n = get_sn N_k) := by
  refine ⟨get_sn_length N_k, get_sn_getD_iff N_k, ?_⟩
  intro u_kn hrect hK hs
  refine ⟨⟨u_kn, N_k, get_sn N_k⟩, ?_, rfl⟩
  have hrect2 : ∀ row ∈ u_kn, row.length = (u_kn.head?.getD []).length := by
    simpa using hrect
  unfold save ensure_type_mat ensure_type_vec
  simp [hrect2, hK, hs]
  rw [if_pos hrect2]

/-- Witness for C7 at `N_k = [2, 1]`: pooled sample `2` belongs to state
`1`, whose block is `[2, 3)`. -/
theorem claim7_get_sn_contiguous_witness :
    2 < ([2, 1] : List ℕ).sum ∧
      ((get_sn [2, 1]).getD 2 0 = 1 ↔
        psum [2, 1] 1 ≤ 2 ∧ 2 < psum [2, 1] 2) :=
  ⟨by decide, (claim7_get_sn_contiguous [2, 1]).2.1 2 1 (by decide)⟩

end PymbarDatasets

namespace OpticalTrapMain

lemma N_i_observed_foldl :
    ∀ (L : List ℕ) (arr : ℕ → ℚ) (i : ℕ),
      (L.foldl (fun arr b => fun i2 => if i2 = b then arr i2 + 1 else arr i2)
        arr) i
      = arr i + (L.countP (fun b => decide (b = i)) : ℚ) := by
  intro L
  induction L with
  | nil => intro arr i; simp
  | cons b t ih =>
    intro arr i
    rw [List.foldl_cons, ih, List.countP_cons]
    by_cases hbi : b = i
    · subst hbi
      simp [Nat.cast_add]
      ring
    · simp [hbi, Ne.symm hbi]

/-- The observed histogram counts raw samples directly: entry `i` is the
number of raw samples whose bin assignment equals `i`. -/
lemma N_i_observed_eq_count (binRow : List ℕ) (i : ℕ) :
    N_i_observed binRow i
      = (binRow.countP (fun b => decide (b = i)) : ℚ) := by
  unfold N_i_observed
  rw [N_i_observed_foldl]
  simp

lemma sum_ite_one (b : ℕ) :
    ∀ (n : ℕ), b < n →
      ((List.range n).map (fun i => if b = i then (1 : ℚ) else 0)).sum = 1 := by
  intro n
  induction n with
  | zero => intro h; omega
  | succ m ihm =>
    intro hb
    rw [List.range_succ, List.map_append, List.sum_append]
    rcases Nat.lt_or_ge b m with hbm | hbm
    · rw [ihm hbm]
      have hne : b ≠ m := by omega
      simp [hne]
    · have hbm2 : b = m := by omega
      subst hbm2
      have hno : ∀ i ∈ List.range b,
          (if b = i then (1 : ℚ) else 0) = (fun _ => (0 : ℚ)) i := by
        intro i hi
        have hilt := List.mem_range.1 hi
        have hne : ¬ b = i := by omega
        simp [hne]
      rw [List.map_congr_left hno]
      simp

lemma sum_map_add_split (l : List ℕ) (f g : ℕ → ℚ) :
    (l.map (fun i => f i + g i)).sum = (l.map f).sum + (l.map g).sum := by
  induction l with
  | nil => simp
  | cons a t ih =>
    simp only [List.map_cons, List.sum_cons, ih]
    ring

/-- `N = N_i_observed.sum()` equals the raw sample count of the state when
every raw bin assignment is a valid bin index. -/
lemma sum_counts (nbins : ℕ) :
    ∀ (binRow : List ℕ), (∀ b ∈ binRow, b < nbins) →
      N_total binRow nbins = (binRow.length : ℚ) := by
  intro binRow
  induction binRow with
  | nil =>
    intro _
    unfold N_total
    have hz : ∀ i ∈ List.range nbins,
        N_i_observed [] i = (fun _ => (0 : ℚ)) i := by
      intro i _
      rw [N_i_observed_eq_count]
      simp
    rw [List.map_congr_left hz]
    simp
  | cons b t ih =>
    intro hall
    unfold N_total at ih ⊢
    have hrw : ∀ i ∈ List.range nbins,
        N_i_observed (b :: t) i
          = (fun i => N_i_observed t i + (if b = i then (1 : ℚ) else 0)) i := by
      intro i _
      simp only [N_i_observed_eq_count, List.countP_cons]
      by_cases hbi : b = i
      · simp [hbi]
      · simp [hbi]
    rw [List.map_congr_left hrw, sum_map_add_split,
      ih (fun b2 hb2 => hall b2 (List.mem_cons_of_mem _ hb2)),
      sum_ite_one b nbins (hall b (List.mem_cons_self _ _))]
    push_cast [List.length_cons]
    ring

/-- Claim C8: the consistency checker builds the observed per-bin counts by
directly counting the state's raw bin assignments (no reweighting), the
`N` it divides by is the sum of those counts, which equals the state's raw
sample count, and the reported uncertainty is
`sqrt(g * N_i * (1 - N_i / N))` with those quantities. -/
theorem claim8_observed_counts_uncertainty (sqrtf : ℚ → ℚ) (g : ℚ)
    (binRow : List ℕ) (nbins : ℕ) (hall : ∀ b ∈ binRow, b < nbins) :
    (∀ i, N_i_observed binRow i
      = (binRow.countP (fun b => decide (b = i)) : ℚ)) ∧
    N_total binRow nbins = (binRow.length : ℚ) ∧
    (∀ i, dN_i_observed sqrtf g binRow nbins i
      = sqrtf (g * (binRow.countP (fun b => decide (b = i)) : ℚ)
          * (1 - (binRow.countP (fun b => decide (b = i)) : ℚ)
              / (binRow.length : ℚ)))) := by
  refine ⟨N_i_observed_eq_count binRow, sum_counts nbins binRow hall, ?_⟩
  intro i
  unfold dN_i_observed
  rw [N_i_observed_eq_count, sum_counts nbins binRow hall]

/-- Witness for C8 at the raw assignment row `[0, 1, 1]` with two bins:
the code's `N` is the raw sample count `3`. -/
theorem claim8_observed_counts_uncertainty_witness :
    (∀ b ∈ [0, 1, 1], b < 2) ∧ N_total [0, 1, 1] 2 = ((3 : ℕ) : ℚ) :=
  ⟨by decide,
    (claim8_observed_counts_uncertainty (fun q => q) 2 [0, 1, 1] 2
      (by decide)).2.1⟩

lemma sum_map_pos (h : ℕ → ℚ) (hpos : ∀ i, 0 < h i) :
    ∀ n, 1 ≤ n → 0 < ((List.range n).map h).sum := by
  intro n
  induction n with
  | zero => intro h0; omega
  | succ m ihm =>
    intro _
    rw [List.range_succ, List.map_append, List.sum_append]
    rcases Nat.eq_zero_or_pos m with rfl | hm
    · simpa using hpos 0
    · have h1 := ihm hm
      have h2 := hpos m
      simp only [List.map_cons, List.sum_cons, List.map_nil, List.sum_nil]
      linarith

lemma sum_map_div_const (l : List ℕ) (h : ℕ → ℚ) (c : ℚ) :
    (l.map (fun i => h i / c)).sum = (l.map h).sum / c := by
  induction l with
  | nil => simp
  | cons a t ih =>
    simp only [List.map_cons, List.sum_cons, ih]
    rw [div_add_div_same]

lemma sum_map_mul_const (l : List ℕ) (h : ℕ → ℚ) (c : ℚ) :
    (l.map (fun i => c * h i)).sum = c * (l.map h).sum := by
  induction l with
  | nil => simp
  | cons a t ih =>
    simp only [List.map_cons, List.sum_cons, ih]
    ring

/-- Claim C10: when the exponential is (as the real `exp` is) everywhere
positive and there is at least one bin, every entry of the normalized bin
probability vector `p_i` is nonnegative, the entries sum exactly to `1`,
and the expected counts `N * p_i` sum to `N`. -/
theorem claim10_probabilities_normalized (expf : ℚ → ℚ) (f : ℕ → ℚ)
    (nbins : ℕ) (N : ℚ) (hpos : ∀ q, 0 < expf q) (hB : 1 ≤ nbins) :
    (∀ i, 0 ≤ p_i expf f nbins i) ∧
    ((List.range nbins).map (p_i expf f nbins)).sum = 1 ∧
    ((List.range nbins).map (N_i_expected expf f nbins N)).sum = N := by
  have hS : 0 < p_i_sum expf f nbins := by
    unfold p_i_sum
    exact sum_map_pos _ (fun i => hpos _) nbins hB
  have hsum1 : ((List.range nbins).map (p_i expf f nbins)).sum = 1 := by
    unfold p_i
    rw [sum_map_div_const]
    have hrfl : ((List.range nbins).map (p_i_raw expf f nbins)).sum
        = p_i_sum expf f nbins := rfl
    rw [hrfl]
    exact div_self (ne_of_gt hS)
  refine ⟨?_, hsum1, ?_⟩
  · intro i
    unfold p_i
    exact div_nonneg (le_of_lt (hpos _)) (le_of_lt hS)
  · unfold N_i_expected
    rw [sum_map_mul_const, hsum1, mul_one]

/-- Witness for C10 with the positive function `expf = 1`, two bins and
`N = 5`: the probabilities sum to one. -/
theorem claim10_probabilities_normalized_witness :
    (∀ q : ℚ, 0 < (fun _ : ℚ => (1 : ℚ)) q) ∧ 1 ≤ 2 ∧
      ((List.range 2).map (p_i (fun _ => 1) (fun _ => 0) 2)).sum = 1 :=
  ⟨fun _ => by norm_num, by decide,
    (claim10_probabilities_normalized (fun _ => 1) (fun _ => 0) 2 5
      (fun _ => by norm_num) (by decide)).2.1⟩

/-- Claim C5: a row is written to the observed-PMF output exactly for the
bins with a positive observed count — every written row belongs to such a
bin, every such bin gets its row, and a zero-count bin never contributes a
row (in particular its `pmf_i_observed`/`dpmf_i_observed` values, `0` in
the allocated arrays, are never written out). -/
theorem claim5_zero_bins_not_written (logf : ℚ → ℚ) (cnt width dN : ℕ → ℚ)
    (nbins : ℕ) :
    (∀ r ∈ pmf_observed_records logf cnt width dN nbins,
      r.1 < nbins ∧ 0 < cnt r.1) ∧
    (∀ i, i < nbins → 0 < cnt i →
      (i, pmf_i_observed logf cnt width nbins i,
        dpmf_i_observed cnt dN nbins i)
        ∈ pmf_observed_records logf cnt width dN nbins) ∧
    (∀ i v w, cnt i = 0 →
      (i, v, w) ∉ pmf_observed_records logf cnt width dN nbins) := by
  refine ⟨?_, ?_, ?_⟩
  · intro r hr
    obtain ⟨i, hi, hval⟩ := List.mem_map.1 hr
    obtain ⟨hmem, hposd⟩ := List.mem_filter.1 hi
    rw [← hval]
    exact ⟨List.mem_range.1 hmem, of_decide_eq_true hposd⟩
  · intro i hi hpos
    apply List.mem_map.2
    exact ⟨i, List.mem_filter.2
      ⟨List.mem_range.2 hi, decide_eq_true hpos⟩, rfl⟩
  · intro i v w hzero hmem
    obtain ⟨j, hj, hval⟩ := List.mem_map.1 hmem
    have hji : j = i := (Prod.ext_iff.1 hval).1
    subst hji
    have hposd := (List.mem_filter.1 hj).2
    have hpos := of_decide_eq_true hposd
    rw [hzero] at hpos
    exact lt_irrefl 0 hpos

/-- Witness for C5: with counts positive only in bin `0`, no row keyed by
bin `1` is written. -/
theorem claim5_zero_bins_not_written_witness :
    (fun i : ℕ => if i = 0 then (1 : ℚ) else 0) 1 = 0 ∧
    ((1 : ℕ), (0 : ℚ), (0 : ℚ)) ∉ pmf_observed_records (fun q => q)
      (fun i => if i = 0 then (1 : ℚ) else 0) (fun _ => 1) (fun _ => 0) 2 :=
  ⟨by norm_num,
    (claim5_zero_bins_not_written (fun q => q)
      (fun i => if i = 0 then (1 : ℚ) else 0) (fun _ => 1) (fun _ => 0)
      2).2.2 1 0 0 (by norm_num)⟩

end OpticalTrapMain
